import Mathlib

/-!
# malloc-server: the `mempool` allocation engine

A shallow embedding of `mempool/mempool.go` and proofs about its three
operations `Alloc`, `Free` and `Access`.

Modelling conventions
* `uint64` and `uint32` values are natural numbers; every place where the Go
  code could wrap carries an explicit `% 2^64` or `% 2^32`.
* `map[uint32]*MemBlock` is a function from ids to optional byte lists
  (`none` = key absent).  Every block is its own allocation, so there is no
  aliasing between map entries.
* The mutex is not modelled: every operation is one atomic state transition.
* `panic("Out of memory (MemBlock full)")` is the outcome `panicked`; the
  panic is raised before any field is written, so the pool is returned as is.
-/

namespace Mempool

/-! ## Errors and constants -/

/-- The three error values exported by the package. -/
inductive Err
  | ErrTooLargeAlloc
  | ErrInvalidAddr
  | ErrOverrunAccess
  deriving DecidableEq

def safeIntBits : Nat := 53

def blockLowBits : Nat := 28

def blockHighBits : Nat := safeIntBits - blockLowBits

/-- Number of blocks (id 0 is reserved for NULL). -/
def MemBlockSlot : Nat := (1 <<< blockHighBits) - 1

/-- Limit of a block in bytes. -/
def MemBlockLimit : Nat := (1 <<< blockLowBits) - 1

/-! ## Data model -/

/-- A Go `byte`. -/
abbrev Byte := Fin 256

/-- The Go type `MemBlock`, a byte slice. -/
abbrev MemBlock := List Byte

/-- The Go struct `MemPool` without its mutex.  The table is a made (non-nil)
map, as `NewMemPool` builds it and every call keeps it; the zero value
`MemPool{}`, whose map is nil and on which `Alloc` panics at the map
assignment, is not a value of this type. -/
structure MemPool where
  blocks : Nat → Option MemBlock
  nextID : Nat

/-- Map assignment `m[id] = b`. -/
def mapSet (m : Nat → Option MemBlock) (id : Nat) (b : MemBlock) : Nat → Option MemBlock :=
  fun k => if k = id then some b else m k

/-- Map deletion `delete(m, id)`. -/
def mapDelete (m : Nat → Option MemBlock) (id : Nat) : Nat → Option MemBlock :=
  fun k => if k = id then none else m k

/-! ## Address codec -/

/-- The function `id2addr`: id -> address (a `uint64` shift). -/
def id2addr (id : Nat) : Nat :=
  (id <<< blockLowBits) % 2 ^ 64

/-- The function `addr2id`: address -> (id, offset). -/
def addr2id (addr : Nat) : Nat × Nat :=
  let id := ((addr >>> blockLowBits) &&& ((1 <<< blockHighBits) - 1)) % 2 ^ 32
  let offset := addr &&& ((1 <<< blockLowBits) - 1)
  (id, offset)

/-! ## Operations -/

/-- The function `NewMemPool`. -/
def NewMemPool : MemPool :=
  { blocks := fun _ => none, nextID := 1 }

/-- What a call of `Alloc` produces: the pair `(address, error)` or a panic. -/
inductive AllocOutcome
  | ret (addr : Nat) (err : Option Err)
  | panicked
  deriving DecidableEq

/-- The method `MemPool.Alloc`. -/
def Alloc (p : MemPool) (size : Nat) : AllocOutcome × MemPool :=
  if size > MemBlockLimit then
    (.ret 0 (some .ErrTooLargeAlloc), p)
  else if p.nextID ≥ MemBlockSlot then
    (.panicked, p)
  else
    let block : MemBlock := List.replicate size 0
    let id := p.nextID
    (.ret (id2addr id) none,
      { blocks := mapSet p.blocks id block, nextID := (p.nextID + 1) % 2 ^ 32 })

/-- The method `MemPool.Free`. -/
def Free (p : MemPool) (addr : Nat) : Option Err × MemPool :=
  if addr = 0 then
    (none, p)
  else
    let id := (addr2id addr).1
    match p.blocks id with
    | none => (some .ErrInvalidAddr, p)
    | some _ => (none, { blocks := mapDelete p.blocks id, nextID := p.nextID })

/-- The method `MemPool.Access`; `pval = none` is the nil pointer (a read). -/
def Access (p : MemPool) (addr : Nat) (pval : Option Byte) : (Byte × Option Err) × MemPool :=
  let id := (addr2id addr).1
  let offset := (addr2id addr).2
  match p.blocks id with
  | none => ((0, some .ErrInvalidAddr), p)
  | some block =>
    if h : offset ≥ block.length then
      ((0, some .ErrOverrunAccess), p)
    else
      match pval with
      | some v =>
        let block2 := block.set offset v
        ((block2.get ⟨offset, by simp only [block2, List.length_set]; omega⟩, none),
          { blocks := mapSet p.blocks id block2, nextID := p.nextID })
      | none =>
        ((block.get ⟨offset, by omega⟩, none), p)

/-! ## Runs of the pool -/

/-- One call on the pool. -/
inductive Op
  | alloc (size : Nat)
  | free (addr : Nat)
  | access (addr : Nat) (pval : Option Byte)
  deriving DecidableEq

/-- What a call gave back to its caller. -/
inductive Result
  | allocRes (o : AllocOutcome)
  | freeRes (err : Option Err)
  | accessRes (val : Byte) (err : Option Err)
  deriving DecidableEq

/-- A call together with what it gave back. -/
structure Event where
  op : Op
  res : Result
  deriving DecidableEq

/-- Perform one call.  A panicking `Alloc` leaves the pool as it was (the
panic precedes every write and the deferred unlock still runs), so a caller
that recovers from the panic goes on with the same pool. -/
def exec (p : MemPool) : Op → Result × MemPool
  | .alloc size => (.allocRes (Alloc p size).1, (Alloc p size).2)
  | .free addr => (.freeRes (Free p addr).1, (Free p addr).2)
  | .access addr pval => (.accessRes (Access p addr pval).1.1 (Access p addr pval).1.2,
      (Access p addr pval).2)

/-- Perform the calls `ops` in order from the pool `p`, recording every call
and its result; the record is in call order. -/
def runFrom (p : MemPool) (ops : List Op) : MemPool × List Event :=
  ops.foldl (fun s op => ((exec s.1 op).2, s.2 ++ [⟨op, (exec s.1 op).1⟩])) (p, [])

/-- Perform the calls `ops` in order on a fresh pool. -/
def run (ops : List Op) : MemPool × List Event :=
  runFrom NewMemPool ops

/-- The addresses returned by the successful `Alloc` calls, in call order. -/
def allocAddrs (log : List Event) : List Nat :=
  log.filterMap fun e =>
    match e.res with
    | .allocRes (.ret addr none) => some addr
    | _ => none

/-- The ids of the blocks removed by `Free` calls (the calls on a non-NULL
address that returned nil), in call order. -/
def freedIds (log : List Event) : List Nat :=
  log.filterMap fun e =>
    match e.op, e.res with
    | .free addr, .freeRes none => if addr = 0 then none else some (addr2id addr).1
    | _, _ => none

/-- The value most recently written at offset `off` of block `id` by a
successful `Access`, and `0` when there was no such write. -/
def lastWritten (log : List Event) (id off : Nat) : Byte :=
  log.foldl (fun cur e =>
    match e.op, e.res with
    | .access addr (some v), .accessRes _ none => if addr2id addr = (id, off) then v else cur
    | _, _ => cur) 0

/-- The pool states that some sequence of calls on a fresh pool ends in. -/
def Reachable (p : MemPool) : Prop :=
  ∃ ops : List Op, (run ops).1 = p

/-- What every run from a fresh pool maintains, stated about the pool and the
record of the calls made so far. -/
structure Inv (p : MemPool) (log : List Event) : Prop where
  pos : 1 ≤ p.nextID
  le : p.nextID ≤ MemBlockSlot
  addrs : allocAddrs log = (List.range' 1 (p.nextID - 1)).map id2addr
  live_iff : ∀ id, (∃ b, p.blocks id = some b) ↔ (1 ≤ id ∧ id < p.nextID ∧ id ∉ freedIds log)
  freed_lt : ∀ id, id ∈ freedIds log → id < p.nextID
  size : ∀ n a b, (⟨.alloc n, .allocRes (.ret a none)⟩ : Event) ∈ log →
    p.blocks (addr2id a).1 = some b → b.length = n
  len_le : ∀ id b, p.blocks id = some b → b.length ≤ MemBlockLimit
  written : ∀ id b off (hoff : off < b.length), p.blocks id = some b →
    b.get ⟨off, hoff⟩ = lastWritten log id off
  fresh : ∀ id off, p.nextID ≤ id → lastWritten log id off = 0

/-! ## The address codec -/

theorem MemBlockSlot_eq : MemBlockSlot = 33554431 := by decide

theorem MemBlockLimit_eq : MemBlockLimit = 268435455 := by decide

theorem addr2id_eq (addr : Nat) :
    addr2id addr = (addr / 268435456 % 33554432, addr % 268435456) := by
  have h1 : (1 <<< blockHighBits) - 1 = 2 ^ 25 - 1 := by decide
  have h2 : (1 <<< blockLowBits) - 1 = 2 ^ 28 - 1 := by decide
  have h3 : blockLowBits = 28 := rfl
  simp only [addr2id, h1, h2, Nat.and_pow_two_sub_one_eq_mod]
  simp only [h3, Nat.shiftRight_eq_div_pow]
  norm_num
  omega

theorem id2addr_eq (id : Nat) (h : id < 2 ^ 32) : id2addr id = id * 268435456 := by
  have h3 : blockLowBits = 28 := rfl
  simp only [id2addr, h3, Nat.shiftLeft_eq]
  norm_num at h ⊢
  omega

theorem addr2id_id2addr_add (id k : Nat) (hid : id < 2 ^ 25) (hk : k < 2 ^ 28) :
    addr2id (id2addr id + k) = (id, k) := by
  rw [id2addr_eq id (by norm_num at hid ⊢; omega), addr2id_eq]
  norm_num at hid hk
  ext <;> simp <;> omega

/-! ## One call at a time -/

theorem Alloc_ok (p : MemPool) (size : Nat) (hid : p.nextID < MemBlockSlot)
    (hsize : size ≤ MemBlockLimit) :
    Alloc p size = (.ret (id2addr p.nextID) none,
      { blocks := mapSet p.blocks p.nextID (List.replicate size 0), nextID := p.nextID + 1 }) := by
  have h1 : ¬ size > MemBlockLimit := by omega
  have h2 : ¬ p.nextID ≥ MemBlockSlot := by omega
  have h3 : (p.nextID + 1) % 2 ^ 32 = p.nextID + 1 := by
    rw [MemBlockSlot_eq] at hid
    norm_num
    omega
  simp only [Alloc, h1, h2, h3, if_false]

theorem Alloc_too_large (p : MemPool) (size : Nat) (h : size > MemBlockLimit) :
    Alloc p size = (.ret 0 (some .ErrTooLargeAlloc), p) := by
  simp only [Alloc, h, if_true]

theorem Alloc_full (p : MemPool) (size : Nat) (hsize : size ≤ MemBlockLimit)
    (hid : MemBlockSlot ≤ p.nextID) : Alloc p size = (.panicked, p) := by
  have h1 : ¬ size > MemBlockLimit := by omega
  have h2 : p.nextID ≥ MemBlockSlot := hid
  simp only [Alloc, h1, h2, if_false, if_true]

theorem Free_zero (p : MemPool) : Free p 0 = (none, p) := by
  simp [Free]

theorem Free_absent (p : MemPool) (addr : Nat) (h0 : addr ≠ 0)
    (h : p.blocks (addr2id addr).1 = none) : Free p addr = (some .ErrInvalidAddr, p) := by
  simp [Free, h0, h]

theorem Free_live (p : MemPool) (addr : Nat) (b : MemBlock) (h0 : addr ≠ 0)
    (h : p.blocks (addr2id addr).1 = some b) :
    Free p addr = (none, { blocks := mapDelete p.blocks (addr2id addr).1, nextID := p.nextID }) := by
  simp [Free, h0, h]

theorem Access_absent (p : MemPool) (addr : Nat) (pval : Option Byte)
    (h : p.blocks (addr2id addr).1 = none) :
    Access p addr pval = ((0, some .ErrInvalidAddr), p) := by
  simp [Access, h]

theorem Access_overrun (p : MemPool) (addr : Nat) (pval : Option Byte) (b : MemBlock)
    (h : p.blocks (addr2id addr).1 = some b) (hoff : b.length ≤ (addr2id addr).2) :
    Access p addr pval = ((0, some .ErrOverrunAccess), p) := by
  simp [Access, h, hoff]

theorem Access_read (p : MemPool) (addr : Nat) (b : MemBlock)
    (h : p.blocks (addr2id addr).1 = some b) (hoff : (addr2id addr).2 < b.length) :
    Access p addr none = ((b.get ⟨(addr2id addr).2, hoff⟩, none), p) := by
  have h2 : ¬ b.length ≤ (addr2id addr).2 := by omega
  simp [Access, h, h2]

theorem Access_write (p : MemPool) (addr : Nat) (v : Byte) (b : MemBlock)
    (h : p.blocks (addr2id addr).1 = some b) (hoff : (addr2id addr).2 < b.length) :
    Access p addr (some v) = ((v, none),
      { blocks := mapSet p.blocks (addr2id addr).1 (b.set (addr2id addr).2 v),
        nextID := p.nextID }) := by
  have h2 : ¬ b.length ≤ (addr2id addr).2 := by omega
  simp [Access, h, h2]

/-! ## Runs: one more call -/

theorem run_nil : run [] = (NewMemPool, []) := rfl

theorem run_snoc (ops : List Op) (op : Op) :
    run (ops ++ [op]) =
      ((exec (run ops).1 op).2, (run ops).2 ++ [⟨op, (exec (run ops).1 op).1⟩]) := by
  simp [run, runFrom, List.foldl_append]

/-- Induction over the runs of a fresh pool. -/
theorem run_induction (P : MemPool → List Event → Prop) (h0 : P NewMemPool [])
    (hstep : ∀ p log op, P p log → P (exec p op).2 (log ++ [⟨op, (exec p op).1⟩]))
    (ops : List Op) : P (run ops).1 (run ops).2 := by
  induction ops using List.reverseRecOn with
  | nil => exact h0
  | append_singleton ops op ih =>
    rw [run_snoc]
    exact hstep _ _ op ih

theorem allocAddrs_snoc (log : List Event) (e : Event) :
    allocAddrs (log ++ [e]) = allocAddrs log ++ allocAddrs [e] := by
  simp [allocAddrs, List.filterMap_append]

theorem freedIds_snoc (log : List Event) (e : Event) :
    freedIds (log ++ [e]) = freedIds log ++ freedIds [e] := by
  simp [freedIds, List.filterMap_append]

theorem lastWritten_snoc_write (log : List Event) (addr : Nat) (v r : Byte) (id off : Nat) :
    lastWritten (log ++ [⟨.access addr (some v), .accessRes r none⟩]) id off =
      if addr2id addr = (id, off) then v else lastWritten log id off := by
  simp [lastWritten, List.foldl_append]

theorem lastWritten_snoc_alloc (log : List Event) (n : Nat) (o : AllocOutcome) (id off : Nat) :
    lastWritten (log ++ [⟨.alloc n, .allocRes o⟩]) id off = lastWritten log id off := by
  simp [lastWritten, List.foldl_append]

theorem lastWritten_snoc_free (log : List Event) (a : Nat) (e : Option Err) (id off : Nat) :
    lastWritten (log ++ [⟨.free a, .freeRes e⟩]) id off = lastWritten log id off := by
  simp [lastWritten, List.foldl_append]

theorem lastWritten_snoc_read (log : List Event) (a : Nat) (r : Byte) (e : Option Err)
    (id off : Nat) :
    lastWritten (log ++ [⟨.access a none, .accessRes r e⟩]) id off = lastWritten log id off := by
  simp [lastWritten, List.foldl_append]

theorem lastWritten_snoc_failed (log : List Event) (a : Nat) (w : Option Byte) (r : Byte)
    (e : Err) (id off : Nat) :
    lastWritten (log ++ [⟨.access a w, .accessRes r (some e)⟩]) id off =
      lastWritten log id off := by
  cases w <;> simp [lastWritten, List.foldl_append]

theorem mem_allocAddrs_of_event (log : List Event) (n a : Nat)
    (h : (⟨.alloc n, .allocRes (.ret a none)⟩ : Event) ∈ log) : a ∈ allocAddrs log := by
  simp only [allocAddrs, List.mem_filterMap]
  exact ⟨_, h, rfl⟩

/-! ## The invariant of runs -/

theorem addr2id_id2addr (id : Nat) (hid : id < 2 ^ 25) : addr2id (id2addr id) = (id, 0) := by
  have h := addr2id_id2addr_add id 0 hid (by norm_num)
  simpa using h

theorem Inv_init : Inv NewMemPool [] where
  pos := by simp [NewMemPool]
  le := by simp [NewMemPool, MemBlockSlot_eq]
  addrs := by simp [NewMemPool, allocAddrs]
  live_iff := by
    intro id
    simp only [NewMemPool]
    constructor
    · rintro ⟨b, hb⟩
      cases hb
    · rintro ⟨h1, h2, _⟩
      omega
  freed_lt := by simp [freedIds]
  size := by simp
  len_le := by simp [NewMemPool]
  written := by simp [NewMemPool]
  fresh := by simp [lastWritten]

theorem Inv.id_lt {p : MemPool} {log : List Event} (h : Inv p log) {id : Nat} {b : MemBlock}
    (hb : p.blocks id = some b) : 1 ≤ id ∧ id < p.nextID ∧ id < 2 ^ 25 := by
  have h1 := (h.live_iff id).1 ⟨b, hb⟩
  have h2 := h.le
  rw [MemBlockSlot_eq] at h2
  norm_num
  omega

theorem Inv.addr_of_mem {p : MemPool} {log : List Event} (h : Inv p log) {a : Nat}
    (ha : a ∈ allocAddrs log) :
    ∃ i, 1 ≤ i ∧ i < p.nextID ∧ i < 2 ^ 25 ∧ a = id2addr i ∧ addr2id a = (i, 0) := by
  rw [h.addrs, List.mem_map] at ha
  obtain ⟨i, hi, rfl⟩ := ha
  rw [List.mem_range'_1] at hi
  have h1 := h.pos
  have h2 := h.le
  rw [MemBlockSlot_eq] at h2
  have h3 : i < 2 ^ 25 := by norm_num; omega
  exact ⟨i, hi.1, by omega, h3, rfl, addr2id_id2addr i h3⟩

/-- A call that neither allocates, frees nor writes keeps the invariant. -/
theorem Inv_inert {p : MemPool} {log : List Event} (e : Event) (h : Inv p log)
    (ha : allocAddrs [e] = []) (hf : freedIds [e] = [])
    (hw : ∀ id off, lastWritten (log ++ [e]) id off = lastWritten log id off) :
    Inv p (log ++ [e]) where
  pos := h.pos
  le := h.le
  addrs := by rw [allocAddrs_snoc, ha, List.append_nil]; exact h.addrs
  live_iff := by rw [freedIds_snoc, hf, List.append_nil]; exact h.live_iff
  freed_lt := by rw [freedIds_snoc, hf, List.append_nil]; exact h.freed_lt
  size := by
    intro n a b hmem hb
    rcases List.mem_append.1 hmem with h1 | h1
    · exact h.size n a b h1 hb
    · have h2 := mem_allocAddrs_of_event [e] n a h1
      rw [ha] at h2
      cases h2
  len_le := h.len_le
  written := by
    intro id b off hoff hb
    rw [hw]
    exact h.written id b off hoff hb
  fresh := by
    intro id off hid
    rw [hw]
    exact h.fresh id off hid

theorem mapSet_same (m : Nat → Option MemBlock) (id : Nat) (b : MemBlock) :
    mapSet m id b id = some b := by
  simp [mapSet]

theorem mapSet_other (m : Nat → Option MemBlock) (id k : Nat) (b : MemBlock) (h : k ≠ id) :
    mapSet m id b k = m k := by
  simp [mapSet, h]

theorem mapDelete_same (m : Nat → Option MemBlock) (id : Nat) : mapDelete m id id = none := by
  simp [mapDelete]

theorem mapDelete_other (m : Nat → Option MemBlock) (id k : Nat) (h : k ≠ id) :
    mapDelete m id k = m k := by
  simp [mapDelete, h]

theorem Inv_alloc {p : MemPool} {log : List Event} (size : Nat) (h : Inv p log) :
    Inv (Alloc p size).2 (log ++ [⟨.alloc size, .allocRes (Alloc p size).1⟩]) := by
  by_cases hsize : size > MemBlockLimit
  · rw [Alloc_too_large p size hsize]
    exact Inv_inert _ h (by simp [allocAddrs]) (by simp [freedIds])
      (fun id off => lastWritten_snoc_alloc log size _ id off)
  by_cases hfull : MemBlockSlot ≤ p.nextID
  · rw [Alloc_full p size (by omega) hfull]
    exact Inv_inert _ h (by simp [allocAddrs]) (by simp [freedIds])
      (fun id off => lastWritten_snoc_alloc log size _ id off)
  have hpos := h.pos
  have hslot : p.nextID < 2 ^ 25 := by
    rw [MemBlockSlot_eq] at hfull
    norm_num
    omega
  rw [Alloc_ok p size (by omega) (by omega)]
  refine ⟨?_, ?_, ?_, ?_, ?_, ?_, ?_, ?_, ?_⟩
  · show 1 ≤ p.nextID + 1
    omega
  · show p.nextID + 1 ≤ MemBlockSlot
    omega
  · show allocAddrs (log ++ [_]) = (List.range' 1 (p.nextID + 1 - 1)).map id2addr
    have h1 : p.nextID + 1 - 1 = (p.nextID - 1) + 1 := by omega
    have h2 : 1 + (p.nextID - 1) = p.nextID := by omega
    rw [allocAddrs_snoc, h.addrs, h1, List.range'_concat]
    simp [allocAddrs, h2]
  · intro id
    show (∃ b, mapSet p.blocks p.nextID _ id = some b) ↔
      (1 ≤ id ∧ id < p.nextID + 1 ∧ id ∉ freedIds (log ++ [_]))
    have hf : freedIds [(⟨.alloc size, .allocRes (.ret (id2addr p.nextID) none)⟩ : Event)] = [] := by
      simp [freedIds]
    rw [freedIds_snoc, hf, List.append_nil]
    by_cases hid : id = p.nextID
    · subst hid
      rw [mapSet_same]
      constructor
      · intro _
        refine ⟨hpos, by omega, fun hmem => ?_⟩
        have := h.freed_lt _ hmem
        omega
      · intro _
        exact ⟨_, rfl⟩
    · rw [mapSet_other _ _ _ _ hid, h.live_iff id]
      constructor
      · rintro ⟨h1, h2, h3⟩
        exact ⟨h1, by omega, h3⟩
      · rintro ⟨h1, h2, h3⟩
        exact ⟨h1, by omega, h3⟩
  · intro id hmem
    show id < p.nextID + 1
    have hf : freedIds [(⟨.alloc size, .allocRes (.ret (id2addr p.nextID) none)⟩ : Event)] = [] := by
      simp [freedIds]
    rw [freedIds_snoc, hf, List.append_nil] at hmem
    have := h.freed_lt id hmem
    omega
  · intro n a b hmem hb
    change mapSet p.blocks p.nextID _ (addr2id a).1 = some b at hb
    rcases List.mem_append.1 hmem with h1 | h1
    · obtain ⟨i, _, hi, hi25, _, hdec⟩ := h.addr_of_mem (mem_allocAddrs_of_event log n a h1)
      rw [hdec] at hb
      rw [mapSet_other _ _ _ _ (by show i ≠ p.nextID; omega)] at hb
      apply h.size n a b h1
      rw [hdec]
      exact hb
    · simp only [List.mem_singleton, Event.mk.injEq, Op.alloc.injEq, Result.allocRes.injEq,
        AllocOutcome.ret.injEq, and_true] at h1
      obtain ⟨hn, ha⟩ := h1
      rw [ha, addr2id_id2addr _ hslot, mapSet_same] at hb
      rw [← Option.some.inj hb, List.length_replicate, hn]
  · intro id b hb
    change mapSet p.blocks p.nextID _ id = some b at hb
    by_cases hid : id = p.nextID
    · subst hid
      rw [mapSet_same] at hb
      rw [← Option.some.inj hb, List.length_replicate]
      omega
    · rw [mapSet_other _ _ _ _ hid] at hb
      exact h.len_le id b hb
  · intro id b off hoff hb
    change mapSet p.blocks p.nextID _ id = some b at hb
    rw [lastWritten_snoc_alloc]
    by_cases hid : id = p.nextID
    · subst hid
      rw [mapSet_same] at hb
      have hb2 := Option.some.inj hb
      subst hb2
      rw [h.fresh _ off (le_refl _)]
      simp
    · rw [mapSet_other _ _ _ _ hid] at hb
      exact h.written id b off hoff hb
  · intro id off hid
    change p.nextID + 1 ≤ id at hid
    rw [lastWritten_snoc_alloc]
    exact h.fresh id off (by omega)

theorem Inv_free {p : MemPool} {log : List Event} (addr : Nat) (h : Inv p log) :
    Inv (Free p addr).2 (log ++ [⟨.free addr, .freeRes (Free p addr).1⟩]) := by
  by_cases h0 : addr = 0
  · subst h0
    rw [Free_zero]
    exact Inv_inert _ h (by simp [allocAddrs]) (by simp [freedIds])
      (fun id off => lastWritten_snoc_free log 0 _ id off)
  cases hb : p.blocks (addr2id addr).1 with
  | none =>
    rw [Free_absent p addr h0 hb]
    exact Inv_inert _ h (by simp [allocAddrs]) (by simp [freedIds])
      (fun id off => lastWritten_snoc_free log addr _ id off)
  | some b0 =>
    rw [Free_live p addr b0 h0 hb]
    have ha : allocAddrs [(⟨.free addr, .freeRes none⟩ : Event)] = [] := by simp [allocAddrs]
    have hf : freedIds [(⟨.free addr, .freeRes none⟩ : Event)] = [(addr2id addr).1] := by
      simp [freedIds, h0]
    have hlt := h.id_lt hb
    refine ⟨h.pos, h.le, ?_, ?_, ?_, ?_, ?_, ?_, ?_⟩
    · rw [allocAddrs_snoc, ha, List.append_nil]
      exact h.addrs
    · intro id
      show (∃ b, mapDelete p.blocks (addr2id addr).1 id = some b) ↔
        (1 ≤ id ∧ id < p.nextID ∧ id ∉ freedIds (log ++ [_]))
      rw [freedIds_snoc, hf]
      by_cases hid : id = (addr2id addr).1
      · rw [hid, mapDelete_same]
        simp
      · rw [mapDelete_other _ _ _ hid, h.live_iff id]
        simp [hid]
    · intro id hmem
      show id < p.nextID
      rw [freedIds_snoc, hf, List.mem_append, List.mem_singleton] at hmem
      rcases hmem with h1 | h1
      · exact h.freed_lt id h1
      · rw [h1]
        exact hlt.2.1
    · intro n a b hmem hb2
      change mapDelete p.blocks (addr2id addr).1 (addr2id a).1 = some b at hb2
      rcases List.mem_append.1 hmem with h1 | h1
      · by_cases hid : (addr2id a).1 = (addr2id addr).1
        · rw [hid, mapDelete_same] at hb2
          cases hb2
        · rw [mapDelete_other _ _ _ hid] at hb2
          exact h.size n a b h1 hb2
      · simp at h1
    · intro id b hb2
      change mapDelete p.blocks (addr2id addr).1 id = some b at hb2
      by_cases hid : id = (addr2id addr).1
      · rw [hid, mapDelete_same] at hb2
        cases hb2
      · rw [mapDelete_other _ _ _ hid] at hb2
        exact h.len_le id b hb2
    · intro id b off hoff hb2
      change mapDelete p.blocks (addr2id addr).1 id = some b at hb2
      rw [lastWritten_snoc_free]
      by_cases hid : id = (addr2id addr).1
      · rw [hid, mapDelete_same] at hb2
        cases hb2
      · rw [mapDelete_other _ _ _ hid] at hb2
        exact h.written id b off hoff hb2
    · intro id off hid
      rw [lastWritten_snoc_free]
      exact h.fresh id off hid

theorem Inv_access {p : MemPool} {log : List Event} (addr : Nat) (pval : Option Byte)
    (h : Inv p log) :
    Inv (Access p addr pval).2
      (log ++ [⟨.access addr pval, .accessRes (Access p addr pval).1.1 (Access p addr pval).1.2⟩]) := by
  cases hb : p.blocks (addr2id addr).1 with
  | none =>
    rw [Access_absent p addr pval hb]
    exact Inv_inert _ h (by simp [allocAddrs]) (by simp [freedIds])
      (fun id off => lastWritten_snoc_failed log addr pval _ _ id off)
  | some b0 =>
    by_cases hoff : b0.length ≤ (addr2id addr).2
    · rw [Access_overrun p addr pval b0 hb hoff]
      exact Inv_inert _ h (by simp [allocAddrs]) (by simp [freedIds])
        (fun id off => lastWritten_snoc_failed log addr pval _ _ id off)
    have hoff2 : (addr2id addr).2 < b0.length := by omega
    cases pval with
    | none =>
      rw [Access_read p addr b0 hb hoff2]
      exact Inv_inert _ h (by simp [allocAddrs]) (by simp [freedIds])
        (fun id off => lastWritten_snoc_read log addr _ _ id off)
    | some v =>
      rw [Access_write p addr v b0 hb hoff2]
      have ha : allocAddrs [(⟨.access addr (some v), .accessRes v none⟩ : Event)] = [] := by
        simp [allocAddrs]
      have hf : freedIds [(⟨.access addr (some v), .accessRes v none⟩ : Event)] = [] := by
        simp [freedIds]
      have hlt := h.id_lt hb
      refine ⟨h.pos, h.le, ?_, ?_, ?_, ?_, ?_, ?_, ?_⟩
      · rw [allocAddrs_snoc, ha, List.append_nil]
        exact h.addrs
      · intro id
        show (∃ b, mapSet p.blocks (addr2id addr).1 _ id = some b) ↔
          (1 ≤ id ∧ id < p.nextID ∧ id ∉ freedIds (log ++ [_]))
        rw [freedIds_snoc, hf, List.append_nil, ← h.live_iff id]
        by_cases hid : id = (addr2id addr).1
        · rw [hid, mapSet_same, hb]
          simp
        · rw [mapSet_other _ _ _ _ hid]
      · rw [freedIds_snoc, hf, List.append_nil]
        exact h.freed_lt
      · intro n a b hmem hb2
        change mapSet p.blocks (addr2id addr).1 _ (addr2id a).1 = some b at hb2
        rcases List.mem_append.1 hmem with h1 | h1
        · by_cases hid : (addr2id a).1 = (addr2id addr).1
          · rw [hid, mapSet_same] at hb2
            rw [← Option.some.inj hb2, List.length_set]
            exact h.size n a b0 h1 (by rw [hid]; exact hb)
          · rw [mapSet_other _ _ _ _ hid] at hb2
            exact h.size n a b h1 hb2
        · simp at h1
      · intro id b hb2
        change mapSet p.blocks (addr2id addr).1 _ id = some b at hb2
        by_cases hid : id = (addr2id addr).1
        · rw [hid, mapSet_same] at hb2
          rw [← Option.some.inj hb2, List.length_set]
          exact h.len_le _ b0 hb
        · rw [mapSet_other _ _ _ _ hid] at hb2
          exact h.len_le id b hb2
      · intro id b off hoff3 hb2
        change mapSet p.blocks (addr2id addr).1 _ id = some b at hb2
        rw [lastWritten_snoc_write]
        by_cases hid : id = (addr2id addr).1
        · rw [hid, mapSet_same] at hb2
          have hb3 := Option.some.inj hb2
          subst hb3
          subst hid
          by_cases ho : off = (addr2id addr).2
          · subst ho
            simp
          · have hne : ¬ addr2id addr = ((addr2id addr).1, off) := by
              intro hc
              apply ho
              rw [hc]
            rw [if_neg hne]
            have hoff4 : off < b0.length := by simpa using hoff3
            rw [← h.written _ b0 off hoff4 hb]
            simp [List.getElem_set, Ne.symm ho]
        · rw [mapSet_other _ _ _ _ hid] at hb2
          have hne : ¬ addr2id addr = (id, off) := by
            intro hc
            apply hid
            rw [hc]
          rw [if_neg hne]
          exact h.written id b off hoff3 hb2
      · intro id off hid
        change p.nextID ≤ id at hid
        rw [lastWritten_snoc_write]
        have hne : ¬ addr2id addr = (id, off) := by
          intro hc
          rw [hc] at hlt
          have := hlt.2.1
          simp only at this
          omega
        rw [if_neg hne]
        exact h.fresh id off hid

theorem Inv_exec {p : MemPool} {log : List Event} (op : Op) (h : Inv p log) :
    Inv (exec p op).2 (log ++ [⟨op, (exec p op).1⟩]) := by
  cases op with
  | alloc size => exact Inv_alloc size h
  | free addr => exact Inv_free addr h
  | access addr pval => exact Inv_access addr pval h

/-- Every run of a fresh pool satisfies the invariant. -/
theorem Inv_run (ops : List Op) : Inv (run ops).1 (run ops).2 :=
  run_induction Inv Inv_init (fun _ _ op h => Inv_exec op h) ops

/-! ## Alloc -/

/-- In every run of a fresh pool the id that the next `Alloc` hands out is
not a key of the table. -/
theorem Reachable.nextID_absent {p : MemPool} (h : Reachable p) : p.blocks p.nextID = none := by
  obtain ⟨ops, rfl⟩ := h
  cases hb : (run ops).1.blocks (run ops).1.nextID with
  | none => rfl
  | some b =>
    have := ((Inv_run ops).id_lt hb).2.1
    omega

/-- Reading inside a block of zeros gives 0 and leaves the pool alone. -/
theorem Access_read_zeros (q : MemPool) (id k size : Nat) (hid : id < 2 ^ 25) (hk2 : k < 2 ^ 28)
    (hk : k < size) (hq : q.blocks id = some (List.replicate size 0)) :
    Access q (id2addr id + k) none = ((0, none), q) := by
  have hdec := addr2id_id2addr_add id k hid hk2
  have hb : q.blocks (addr2id (id2addr id + k)).1 = some (List.replicate size 0) := by
    rw [hdec]
    exact hq
  have hoff : (addr2id (id2addr id + k)).2 < (List.replicate size (0 : Byte)).length := by
    rw [hdec, List.length_replicate]
    exact hk
  rw [Access_read _ _ _ hb hoff]
  simp

/-- `Alloc` within both limits: result, new `nextID`, new table, on every
pool with a made map. -/
theorem Alloc_ok_post (p : MemPool) (size : Nat) (hid : p.nextID < MemBlockSlot)
    (hsize : size ≤ MemBlockLimit) :
    (Alloc p size).1 = .ret (id2addr p.nextID) none ∧
    (Alloc p size).2.nextID = p.nextID + 1 ∧
    (Alloc p size).2.blocks = mapSet p.blocks p.nextID (List.replicate size 0) := by
  rw [Alloc_ok p size hid hsize]
  exact ⟨rfl, rfl, rfl⟩

/-- C1: for every pool state of a run of a fresh pool with
`nextID < MemBlockSlot` and every `size ≤ MemBlockLimit`, `Alloc(size)` returns
`(id2addr(nextID), nil)`; the new `nextID` is the old one plus 1; the new table
is the old one plus the single entry binding the old `nextID`, which was not a
key, to a buffer of length `size` whose bytes are all 0; a read at `A + k`
right after returns 0 for every `k < size`; and every previously live block is
unchanged. -/
theorem Alloc_success_post (ops : List Op) (size : Nat)
    (hid : (run ops).1.nextID < MemBlockSlot) (hsize : size ≤ MemBlockLimit) :
    (Alloc (run ops).1 size).1 = .ret (id2addr (run ops).1.nextID) none ∧
    (Alloc (run ops).1 size).2.nextID = (run ops).1.nextID + 1 ∧
    (run ops).1.blocks (run ops).1.nextID = none ∧
    (Alloc (run ops).1 size).2.blocks =
      mapSet (run ops).1.blocks (run ops).1.nextID (List.replicate size 0) ∧
    (∃ b, (Alloc (run ops).1 size).2.blocks (run ops).1.nextID = some b ∧
      b.length = size ∧ ∀ x ∈ b, x = 0) ∧
    (∀ k, k < size →
      Access (Alloc (run ops).1 size).2 (id2addr (run ops).1.nextID + k) none =
        ((0, none), (Alloc (run ops).1 size).2)) ∧
    (∀ id, id ≠ (run ops).1.nextID →
      (Alloc (run ops).1 size).2.blocks id = (run ops).1.blocks id) ∧
    (∀ id b, (run ops).1.blocks id = some b →
      (Alloc (run ops).1 size).2.blocks id = some b) := by
  have hslot : (run ops).1.nextID < 2 ^ 25 := by
    rw [MemBlockSlot_eq] at hid
    norm_num
    omega
  have hk28 : ∀ k, k < size → k < 2 ^ 28 := by
    intro k hk
    rw [MemBlockLimit_eq] at hsize
    norm_num
    omega
  have hnone : (run ops).1.blocks (run ops).1.nextID = none :=
    Reachable.nextID_absent ⟨ops, rfl⟩
  obtain ⟨hret, hnext, htab⟩ := Alloc_ok_post (run ops).1 size hid hsize
  have hnew : (Alloc (run ops).1 size).2.blocks (run ops).1.nextID =
      some (List.replicate size 0) := by
    rw [htab]
    exact mapSet_same _ _ _
  refine ⟨hret, hnext, hnone, htab, ⟨_, hnew, List.length_replicate _ _, ?_⟩, ?_, ?_, ?_⟩
  · intro x hx
    exact (List.mem_replicate.1 hx).2
  · intro k hk
    exact Access_read_zeros _ (run ops).1.nextID k size hslot (hk28 k hk) hk hnew
  · intro id hne
    rw [htab]
    exact mapSet_other _ _ _ _ hne
  · intro id b hb
    have hne : id ≠ (run ops).1.nextID := by
      intro hc
      rw [hc, hnone] at hb
      cases hb
    rw [htab, mapSet_other _ _ _ _ hne]
    exact hb

/-- Witness of C1: a third allocation after a block of 4 bytes that was
written to and a block of 2 bytes; the written block is unchanged. -/
theorem Alloc_success_post_witness :
    (run [.alloc 4, .access (id2addr 1 + 1) (some 9), .alloc 2]).1.nextID < MemBlockSlot ∧
    3 ≤ MemBlockLimit ∧
    (run [.alloc 4, .access (id2addr 1 + 1) (some 9), .alloc 2]).1.blocks 1 =
      some [0, 9, 0, 0] ∧
    (Alloc (run [.alloc 4, .access (id2addr 1 + 1) (some 9), .alloc 2]).1 3).1 =
      .ret (id2addr 3) none ∧
    (Alloc (run [.alloc 4, .access (id2addr 1 + 1) (some 9), .alloc 2]).1 3).2.nextID = 4 ∧
    (Alloc (run [.alloc 4, .access (id2addr 1 + 1) (some 9), .alloc 2]).1 3).2.blocks 1 =
      some [0, 9, 0, 0] ∧
    Access (Alloc (run [.alloc 4, .access (id2addr 1 + 1) (some 9), .alloc 2]).1 3).2
      (id2addr 3 + 2) none =
      ((0, none), (Alloc (run [.alloc 4, .access (id2addr 1 + 1) (some 9), .alloc 2]).1 3).2) :=
  have h := Alloc_success_post [.alloc 4, .access (id2addr 1 + 1) (some 9), .alloc 2] 3
    (by decide) (by decide)
  ⟨by decide, by decide, by decide, h.1, h.2.1,
    h.2.2.2.2.2.2.2 1 [0, 9, 0, 0] (by decide), h.2.2.2.2.2.1 2 (by decide)⟩

/-- C2: `Alloc(size)` returns `ErrTooLargeAlloc` if and only if
`size > MemBlockLimit` (= 2^28 - 1); then the returned address is 0 and the
pool (table and `nextID`) is unchanged. -/
theorem Alloc_rejects_oversize (p : MemPool) (size : Nat) :
    ((∃ a, (Alloc p size).1 = .ret a (some .ErrTooLargeAlloc)) ↔ size > MemBlockLimit) ∧
    (size > MemBlockLimit →
      (Alloc p size).1 = .ret 0 (some .ErrTooLargeAlloc) ∧ (Alloc p size).2 = p) ∧
    MemBlockLimit = 2 ^ 28 - 1 := by
  refine ⟨⟨?_, ?_⟩, ?_, by decide⟩
  · rintro ⟨a, ha⟩
    by_contra hsize
    by_cases hfull : MemBlockSlot ≤ p.nextID
    · rw [Alloc_full p size (by omega) hfull] at ha
      cases ha
    · rw [Alloc_ok p size (by omega) (by omega)] at ha
      simp at ha
  · intro hsize
    exact ⟨0, by rw [Alloc_too_large p size hsize]⟩
  · intro hsize
    rw [Alloc_too_large p size hsize]
    exact ⟨rfl, rfl⟩

/-- Witness of C2: a request of `MemBlockLimit + 1` bytes on a fresh pool. -/
theorem Alloc_rejects_oversize_witness :
    MemBlockLimit + 1 > MemBlockLimit ∧
    (Alloc NewMemPool (MemBlockLimit + 1)).1 = .ret 0 (some .ErrTooLargeAlloc) ∧
    (Alloc NewMemPool (MemBlockLimit + 1)).2 = NewMemPool :=
  ⟨by decide, (Alloc_rejects_oversize NewMemPool (MemBlockLimit + 1)).2.1 (by decide)⟩

/-- The record of a run only grows: the record after more calls starts with
the record so far. -/
theorem run_append_log (ops1 ops2 : List Op) :
    ∃ rest, (run (ops1 ++ ops2)).2 = (run ops1).2 ++ rest := by
  induction ops2 using List.reverseRecOn with
  | nil => exact ⟨[], by simp⟩
  | append_singleton ops op ih =>
    obtain ⟨rest, hrest⟩ := ih
    rw [← List.append_assoc, run_snoc, hrest]
    exact ⟨rest ++ [⟨op, (exec (run (ops1 ++ ops)).1 op).1⟩], by simp⟩

/-- C3: in every run of a fresh pool, of any two successful `Alloc` calls the
later one returns a different address with a strictly greater decoded id, and
every returned address decodes to offset 0. -/
theorem Alloc_addresses_never_reused (ops : List Op) :
    List.Pairwise (fun a b => a ≠ b ∧ (addr2id a).1 < (addr2id b).1) (allocAddrs (run ops).2) ∧
    ∀ a, a ∈ allocAddrs (run ops).2 → (addr2id a).2 = 0 := by
  have hinv := Inv_run ops
  constructor
  · have hmem : ∀ a, a ∈ allocAddrs (run ops).2 → ∃ i, addr2id a = (i, 0) := by
      intro a ha
      obtain ⟨i, _, _, _, _, hdec⟩ := hinv.addr_of_mem ha
      exact ⟨i, hdec⟩
    have hpair : List.Pairwise (fun a b => (addr2id a).1 < (addr2id b).1)
        (allocAddrs (run ops).2) := by
      rw [hinv.addrs, List.pairwise_map]
      refine (List.pairwise_lt_range' 1 ((run ops).1.nextID - 1)).imp_of_mem ?_
      intro i j hi hj hij
      rw [List.mem_range'_1] at hi hj
      have hle := hinv.le
      rw [MemBlockSlot_eq] at hle
      rw [addr2id_id2addr i (by norm_num; omega), addr2id_id2addr j (by norm_num; omega)]
      exact hij
    refine hpair.imp ?_
    intro a b hab
    refine ⟨fun hc => ?_, hab⟩
    rw [hc] at hab
    exact lt_irrefl _ hab
  · intro a ha
    obtain ⟨i, _, _, _, _, hdec⟩ := hinv.addr_of_mem ha
    rw [hdec]

/-- Witness of C3: two allocations with a free and a write between them. -/
theorem Alloc_addresses_never_reused_witness :
    allocAddrs (run [.alloc 3, .free (id2addr 1), .access (id2addr 1) (some 7), .alloc 2]).2 =
      [id2addr 1, id2addr 2] ∧
    List.Pairwise (fun a b => a ≠ b ∧ (addr2id a).1 < (addr2id b).1)
      (allocAddrs (run [.alloc 3, .free (id2addr 1), .access (id2addr 1) (some 7), .alloc 2]).2) :=
  ⟨by decide, (Alloc_addresses_never_reused
    [.alloc 3, .free (id2addr 1), .access (id2addr 1) (some 7), .alloc 2]).1⟩

/-! ## Free -/

/-- C4: in every run of a fresh pool, for an address `A` returned by a
successful `Alloc` whose block has not been freed, `Free(A)` returns nil,
removes exactly that block (the block was live, every other entry and `nextID`
are unchanged), and a second `Free(A)` right after returns `ErrInvalidAddr` and
changes nothing. -/
theorem Free_detects_double_free (ops : List Op) (A : Nat)
    (hA : A ∈ allocAddrs (run ops).2)
    (hlive : (addr2id A).1 ∉ freedIds (run ops).2) :
    (∃ b, (run ops).1.blocks (addr2id A).1 = some b) ∧
    (Free (run ops).1 A).1 = none ∧
    (Free (run ops).1 A).2.nextID = (run ops).1.nextID ∧
    (Free (run ops).1 A).2.blocks (addr2id A).1 = none ∧
    (∀ id, id ≠ (addr2id A).1 →
      (Free (run ops).1 A).2.blocks id = (run ops).1.blocks id) ∧
    Free (Free (run ops).1 A).2 A = (some .ErrInvalidAddr, (Free (run ops).1 A).2) := by
  have hinv := Inv_run ops
  obtain ⟨i, hi1, hi2, hi3, hAi, hdec⟩ := hinv.addr_of_mem hA
  have hA0 : A ≠ 0 := by
    rw [hAi, id2addr_eq i (by norm_num at hi3 ⊢; omega)]
    omega
  obtain ⟨b, hb⟩ := (hinv.live_iff (addr2id A).1).2 ⟨by rw [hdec]; exact hi1,
    by rw [hdec]; exact hi2, hlive⟩
  rw [Free_live _ A b hA0 hb]
  refine ⟨⟨b, hb⟩, rfl, rfl, mapDelete_same _ _, fun id hne => mapDelete_other _ _ _ hne, ?_⟩
  exact Free_absent _ A hA0 (mapDelete_same _ _)

/-- Witness of C4: the second of two allocated blocks, after a write to it. -/
theorem Free_detects_double_free_witness :
    id2addr 2 ∈ allocAddrs (run [.alloc 4, .alloc 1024, .access (id2addr 2) (some 9)]).2 ∧
    (addr2id (id2addr 2)).1 ∉
      freedIds (run [.alloc 4, .alloc 1024, .access (id2addr 2) (some 9)]).2 ∧
    (Free (run [.alloc 4, .alloc 1024, .access (id2addr 2) (some 9)]).1 (id2addr 2)).1 = none ∧
    (Free (Free (run [.alloc 4, .alloc 1024, .access (id2addr 2) (some 9)]).1 (id2addr 2)).2
      (id2addr 2)).1 = some .ErrInvalidAddr :=
  have h := Free_detects_double_free [.alloc 4, .alloc 1024, .access (id2addr 2) (some 9)]
    (id2addr 2) (by decide) (by decide)
  ⟨by decide, by decide, h.2.1, by rw [h.2.2.2.2.2]⟩

/-- C5: `Free(0)` returns nil and leaves the pool (table and `nextID`) as it
was, on every pool and however often it is repeated. -/
theorem Free_zero_noop (p : MemPool) (n : Nat) :
    Free p 0 = (none, p) ∧
    (fun q => (Free q 0).2)^[n] p = p ∧
    Free ((fun q => (Free q 0).2)^[n] p) 0 = (none, p) ∧
    Free NewMemPool 0 = (none, NewMemPool) := by
  have hiter : (fun q => (Free q 0).2)^[n] p = p := by
    induction n with
    | zero => rfl
    | succ n ih =>
      rw [Function.iterate_succ_apply, Free_zero]
      exact ih
  exact ⟨Free_zero p, hiter, by rw [hiter, Free_zero], Free_zero _⟩

/-- In a run the ids handed out so far are exactly those from 1 below `nextID`. -/
theorem Inv.issued_iff {p : MemPool} {log : List Event} (h : Inv p log) (id : Nat) :
    (∃ a, a ∈ allocAddrs log ∧ (addr2id a).1 = id) ↔ (1 ≤ id ∧ id < p.nextID) := by
  constructor
  · rintro ⟨a, ha, rfl⟩
    obtain ⟨i, h1, h2, _, _, hdec⟩ := h.addr_of_mem ha
    rw [hdec]
    exact ⟨h1, h2⟩
  · rintro ⟨h1, h2⟩
    have hle := h.le
    rw [MemBlockSlot_eq] at hle
    refine ⟨id2addr id, ?_, ?_⟩
    · rw [h.addrs, List.mem_map]
      exact ⟨id, by rw [List.mem_range'_1]; omega, rfl⟩
    · rw [addr2id_id2addr id (by norm_num; omega)]

/-- C6: for every pool and every address other than 0, `Free` returns
`ErrInvalidAddr` exactly when the decoded id is not a key of the table, and
then the pool is unchanged.  In a run of a fresh pool an id is not a key
exactly when it was never issued or has been freed; so `Free` of a non-zero
address whose id was never issued returns `ErrInvalidAddr`, as for 123456,
which decodes to id 0. -/
theorem Free_fails_iff_not_live (p : MemPool) (addr : Nat) (h0 : addr ≠ 0) :
    ((Free p addr).1 = some .ErrInvalidAddr ↔ p.blocks (addr2id addr).1 = none) ∧
    ((Free p addr).1 = some .ErrInvalidAddr → (Free p addr).2 = p) ∧
    (∀ ops id, (run ops).1.blocks id = none ↔
      ((∀ a, a ∈ allocAddrs (run ops).2 → (addr2id a).1 ≠ id) ∨ id ∈ freedIds (run ops).2)) ∧
    (∀ ops, (∀ a, a ∈ allocAddrs (run ops).2 → (addr2id a).1 ≠ (addr2id addr).1) →
      Free (run ops).1 addr = (some .ErrInvalidAddr, (run ops).1)) ∧
    addr2id 123456 = (0, 123456) ∧
    (∀ ops, Free (run ops).1 123456 = (some .ErrInvalidAddr, (run ops).1)) := by
  have hkey : ∀ ops id, (run ops).1.blocks id = none ↔
      ((∀ a, a ∈ allocAddrs (run ops).2 → (addr2id a).1 ≠ id) ∨ id ∈ freedIds (run ops).2) := by
    intro ops id
    have hinv := Inv_run ops
    have hiss := hinv.issued_iff id
    have hlive := hinv.live_iff id
    constructor
    · intro hnone
      by_cases hf : id ∈ freedIds (run ops).2
      · exact Or.inr hf
      · refine Or.inl fun a ha hc => ?_
        have hr := hiss.1 ⟨a, ha, hc⟩
        obtain ⟨b, hb⟩ := hlive.2 ⟨hr.1, hr.2, hf⟩
        rw [hnone] at hb
        cases hb
    · intro hor
      cases hb : (run ops).1.blocks id with
      | none => rfl
      | some b =>
        have hl := hlive.1 ⟨b, hb⟩
        rcases hor with h1 | h1
        · obtain ⟨a, ha, hc⟩ := hiss.2 ⟨hl.1, hl.2.1⟩
          exact absurd hc (h1 a ha)
        · exact absurd h1 hl.2.2
  have hnever : ∀ ops (x : Nat), x ≠ 0 →
      (∀ a, a ∈ allocAddrs (run ops).2 → (addr2id a).1 ≠ (addr2id x).1) →
      Free (run ops).1 x = (some .ErrInvalidAddr, (run ops).1) := by
    intro ops x hx hni
    exact Free_absent _ x hx ((hkey ops _).2 (Or.inl hni))
  have hdec : addr2id 123456 = (0, 123456) := by
    rw [addr2id_eq]
  refine ⟨⟨?_, ?_⟩, ?_, hkey, fun ops => hnever ops addr h0, hdec, ?_⟩
  · intro herr
    cases hb : p.blocks (addr2id addr).1 with
    | none => rfl
    | some b =>
      rw [Free_live p addr b h0 hb] at herr
      cases herr
  · intro hb
    rw [Free_absent p addr h0 hb]
  · intro herr
    cases hb : p.blocks (addr2id addr).1 with
    | none => rw [Free_absent p addr h0 hb]
    | some b =>
      rw [Free_live p addr b h0 hb] at herr
      cases herr
  · intro ops
    refine hnever ops 123456 (by decide) ?_
    intro a ha
    obtain ⟨i, h1, _, _, _, hi⟩ := (Inv_run ops).addr_of_mem ha
    rw [hi, hdec]
    show i ≠ 0
    omega

/-- Witness of C6: after one allocation and its release, the released address
and an address in block 2, which was never issued, are both refused. -/
theorem Free_fails_iff_not_live_witness :
    id2addr 1 ≠ 0 ∧
    (run [.alloc 1024, .free (id2addr 1)]).1.blocks (addr2id (id2addr 1)).1 = none ∧
    (Free (run [.alloc 1024, .free (id2addr 1)]).1 (id2addr 1)).1 = some .ErrInvalidAddr ∧
    Free (run [.alloc 1024, .free (id2addr 1)]).1 (id2addr 2 + 5) =
      (some .ErrInvalidAddr, (run [.alloc 1024, .free (id2addr 1)]).1) :=
  ⟨by decide, by decide,
    (Free_fails_iff_not_live (run [.alloc 1024, .free (id2addr 1)]).1 (id2addr 1)
      (by decide)).1.2 (by decide),
    (Free_fails_iff_not_live (run [.alloc 1024, .free (id2addr 1)]).1 (id2addr 2 + 5)
      (by decide)).2.2.2.1 [.alloc 1024, .free (id2addr 1)] (by decide)⟩

/-! ## Access -/

theorem Access_absent_at (p : MemPool) (addr id off : Nat) (pval : Option Byte)
    (hdec : addr2id addr = (id, off)) (h : p.blocks id = none) :
    Access p addr pval = ((0, some .ErrInvalidAddr), p) := by
  have h1 : (addr2id addr).1 = id := by rw [hdec]
  subst h1
  exact Access_absent p addr pval h

theorem Access_overrun_at (p : MemPool) (addr id off : Nat) (pval : Option Byte) (b : MemBlock)
    (hdec : addr2id addr = (id, off)) (h : p.blocks id = some b) (hoff : b.length ≤ off) :
    Access p addr pval = ((0, some .ErrOverrunAccess), p) := by
  have h1 : (addr2id addr).1 = id := by rw [hdec]
  have h2 : (addr2id addr).2 = off := by rw [hdec]
  subst h1
  subst h2
  exact Access_overrun p addr pval b h hoff

theorem Access_read_at (p : MemPool) (addr id off : Nat) (b : MemBlock)
    (hdec : addr2id addr = (id, off)) (h : p.blocks id = some b) (hoff : off < b.length) :
    Access p addr none = ((b.get ⟨off, hoff⟩, none), p) := by
  have h1 : (addr2id addr).1 = id := by rw [hdec]
  have h2 : (addr2id addr).2 = off := by rw [hdec]
  subst h1
  subst h2
  exact Access_read p addr b h hoff

theorem Access_write_at (p : MemPool) (addr id off : Nat) (v : Byte) (b : MemBlock)
    (hdec : addr2id addr = (id, off)) (h : p.blocks id = some b) (hoff : off < b.length) :
    Access p addr (some v) =
      ((v, none), { blocks := mapSet p.blocks id (b.set off v), nextID := p.nextID }) := by
  have h1 : (addr2id addr).1 = id := by rw [hdec]
  have h2 : (addr2id addr).2 = off := by rw [hdec]
  subst h1
  subst h2
  exact Access_write p addr v b h hoff

/-- In a run, the block behind an address that `Alloc(n)` returned and that has
not been freed is live with length `n`, and `A + k` decodes to that block at
offset `k` for every `k` below 2^28. -/
theorem Inv.block_of_alloc {p : MemPool} {log : List Event} (h : Inv p log) {n A : Nat}
    (hA : (⟨.alloc n, .allocRes (.ret A none)⟩ : Event) ∈ log)
    (hlive : (addr2id A).1 ∉ freedIds log) :
    ∃ b, p.blocks (addr2id A).1 = some b ∧ b.length = n ∧ n < 2 ^ 28 ∧
      ∀ k, k < 2 ^ 28 → addr2id (A + k) = ((addr2id A).1, k) := by
  obtain ⟨i, hi1, hi2, hi3, hAi, hdec⟩ := h.addr_of_mem (mem_allocAddrs_of_event log n A hA)
  obtain ⟨b, hb⟩ := (h.live_iff (addr2id A).1).2 ⟨by rw [hdec]; exact hi1,
    by rw [hdec]; exact hi2, hlive⟩
  have hlen := h.size n A b hA hb
  have hle := h.len_le _ b hb
  rw [MemBlockLimit_eq] at hle
  refine ⟨b, hb, hlen, by norm_num; omega, fun k hk => ?_⟩
  rw [hdec, hAi]
  exact addr2id_id2addr_add i k hi3 hk

/-- C7: in every run of a fresh pool, for an address `A` that `Alloc(n)`
returned and whose block has not been freed, every `k < n` and every byte `v`:
the write `Access(A+k, v)` returns `(v, nil)`, the read `Access(A+k, none)`
right after it returns `(v, nil)`, and a read in the current pool returns the
value most recently written at that offset of the block (0 if there was no
write) and leaves the pool unchanged. -/
theorem Access_write_then_read (ops : List Op) (n A k : Nat) (v : Byte)
    (hA : (⟨.alloc n, .allocRes (.ret A none)⟩ : Event) ∈ (run ops).2)
    (hlive : (addr2id A).1 ∉ freedIds (run ops).2)
    (hk : k < n) :
    (Access (run ops).1 (A + k) (some v)).1 = (v, none) ∧
    Access (Access (run ops).1 (A + k) (some v)).2 (A + k) none =
      ((v, none), (Access (run ops).1 (A + k) (some v)).2) ∧
    Access (run ops).1 (A + k) none =
      ((lastWritten (run ops).2 (addr2id A).1 k, none), (run ops).1) := by
  have hinv := Inv_run ops
  obtain ⟨b, hb, hlen, hn, hdec⟩ := hinv.block_of_alloc hA hlive
  have hk2 : k < 2 ^ 28 := by omega
  have hoff : k < b.length := by omega
  have hoff2 : k < (b.set k v).length := by rw [List.length_set]; exact hoff
  rw [Access_write_at _ _ _ _ v b (hdec k hk2) hb hoff]
  refine ⟨rfl, ?_, ?_⟩
  · rw [Access_read_at _ _ _ _ (b.set k v) (hdec k hk2) (mapSet_same _ _ _) hoff2]
    simp
  · rw [Access_read_at _ _ _ _ b (hdec k hk2) hb hoff, hinv.written _ b k hoff hb]

/-- Witness of C7: the test scenario, a block of 10 bytes written at offsets 4
and 5 and then accessed at offset 4. -/
theorem Access_write_then_read_witness :
    (⟨.alloc 10, .allocRes (.ret (id2addr 1) none)⟩ : Event) ∈
      (run [.alloc 10, .access (id2addr 1 + 4) (some 128), .access (id2addr 1 + 5) (some 64)]).2 ∧
    (addr2id (id2addr 1)).1 ∉ freedIds
      (run [.alloc 10, .access (id2addr 1 + 4) (some 128), .access (id2addr 1 + 5) (some 64)]).2 ∧
    4 < 10 ∧
    lastWritten
      (run [.alloc 10, .access (id2addr 1 + 4) (some 128), .access (id2addr 1 + 5) (some 64)]).2
      (addr2id (id2addr 1)).1 4 = 128 ∧
    (Access
      (run [.alloc 10, .access (id2addr 1 + 4) (some 128), .access (id2addr 1 + 5) (some 64)]).1
      (id2addr 1 + 4) none).1 = (128, none) ∧
    (Access
      (run [.alloc 10, .access (id2addr 1 + 4) (some 128), .access (id2addr 1 + 5) (some 64)]).1
      (id2addr 1 + 4) (some 33)).1 = (33, none) :=
  have h := Access_write_then_read
    [.alloc 10, .access (id2addr 1 + 4) (some 128), .access (id2addr 1 + 5) (some 64)]
    10 (id2addr 1) 4 33 (by decide) (by decide) (by decide)
  ⟨by decide, by decide, by decide, by decide, by rw [h.2.2]; decide, h.1⟩

/-- C8 as stated fails: after `Alloc(10)` twice on a fresh pool, with
`A = id2addr 1` and `k = 2^28 ≥ 10`, the address `A + k` is the base address of
block 2: the write `Access(A+k, 128)` and the read `Access(A+k, none)` both
succeed.  After a single `Alloc(10)` the same read fails with `ErrInvalidAddr`.
Neither is `ErrOverrunAccess`. -/
theorem Access_past_offset_bits_not_overrun :
    (⟨.alloc 10, .allocRes (.ret (id2addr 1) none)⟩ : Event) ∈ (run [.alloc 10, .alloc 10]).2 ∧
    (addr2id (id2addr 1)).1 ∉ freedIds (run [.alloc 10, .alloc 10]).2 ∧
    2 ^ 28 ≥ 10 ∧
    id2addr 1 + 2 ^ 28 < 2 ^ 64 ∧
    (Access (run [.alloc 10, .alloc 10]).1 (id2addr 1 + 2 ^ 28) (some 128)).1 = (128, none) ∧
    (Access (run [.alloc 10, .alloc 10]).1 (id2addr 1 + 2 ^ 28) none).1 = (0, none) ∧
    (Access (run [.alloc 10]).1 (id2addr 1 + 2 ^ 28) none).1 = (0, some .ErrInvalidAddr) := by
  decide

/-- C8 (amended): in every run of a fresh pool, for an address `A` that
`Alloc(n)` returned and whose block has not been freed, and every `k` with
`n ≤ k < 2^28`, the write `Access(A+k, v)` and the read `Access(A+k, none)`
both fail with `ErrOverrunAccess`, return the byte 0 and leave the pool
unchanged. -/
theorem Access_overrun_within_offset_bits (ops : List Op) (n A k : Nat) (v : Byte)
    (hA : (⟨.alloc n, .allocRes (.ret A none)⟩ : Event) ∈ (run ops).2)
    (hlive : (addr2id A).1 ∉ freedIds (run ops).2)
    (hk : n ≤ k) (hk2 : k < 2 ^ 28) :
    Access (run ops).1 (A + k) (some v) = ((0, some .ErrOverrunAccess), (run ops).1) ∧
    Access (run ops).1 (A + k) none = ((0, some .ErrOverrunAccess), (run ops).1) := by
  obtain ⟨b, hb, hlen, _, hdec⟩ := (Inv_run ops).block_of_alloc hA hlive
  have hoff : b.length ≤ k := by omega
  exact ⟨Access_overrun_at _ _ _ _ _ b (hdec k hk2) hb hoff,
    Access_overrun_at _ _ _ _ _ b (hdec k hk2) hb hoff⟩

/-- Witness of C8: the test scenario, offset 10 of a block of 10 bytes. -/
theorem Access_overrun_within_offset_bits_witness :
    (⟨.alloc 10, .allocRes (.ret (id2addr 1) none)⟩ : Event) ∈ (run [.alloc 10, .alloc 10]).2 ∧
    (addr2id (id2addr 1)).1 ∉ freedIds (run [.alloc 10, .alloc 10]).2 ∧
    10 ≤ 10 ∧ 10 < 2 ^ 28 ∧
    Access (run [.alloc 10, .alloc 10]).1 (id2addr 1 + 10) (some 128) =
      ((0, some .ErrOverrunAccess), (run [.alloc 10, .alloc 10]).1) ∧
    Access (run [.alloc 10, .alloc 10]).1 (id2addr 1 + 10) none =
      ((0, some .ErrOverrunAccess), (run [.alloc 10, .alloc 10]).1) :=
  ⟨by decide, by decide, by decide, by decide,
    Access_overrun_within_offset_bits [.alloc 10, .alloc 10] 10 (id2addr 1) 10 128
      (by decide) (by decide) (by decide) (by decide)⟩

/-- C9: in every run of a fresh pool, once `Free(A)` has returned nil for an
address `A` that an `Alloc` returned, then after any further calls the id of
`A` is not a key of the table, and every `Access(A+k, w)` with `k < 2^28`,
read or write, returns `ErrInvalidAddr` and leaves the pool unchanged. -/
theorem freed_id_stays_dangling (ops1 ops2 : List Op) (A k : Nat) (w : Option Byte)
    (hA : A ∈ allocAddrs (run ops1).2)
    (hfree : (Free (run ops1).1 A).1 = none)
    (hk : k < 2 ^ 28) :
    (run (ops1 ++ .free A :: ops2)).1.blocks (addr2id A).1 = none ∧
    Access (run (ops1 ++ .free A :: ops2)).1 (A + k) w =
      ((0, some .ErrInvalidAddr), (run (ops1 ++ .free A :: ops2)).1) := by
  obtain ⟨i, hi1, _, hi3, hAi, hdec⟩ := (Inv_run ops1).addr_of_mem hA
  have hA0 : A ≠ 0 := by
    rw [hAi, id2addr_eq i (by norm_num at hi3 ⊢; omega)]
    omega
  have hsplit : ops1 ++ .free A :: ops2 = (ops1 ++ [.free A]) ++ ops2 := by simp
  obtain ⟨rest, hrest⟩ := run_append_log (ops1 ++ [.free A]) ops2
  have hfreed : (addr2id A).1 ∈ freedIds (run (ops1 ++ .free A :: ops2)).2 := by
    rw [hsplit, hrest, run_snoc]
    simp only [exec, hfree, freedIds, List.filterMap_append, List.mem_append]
    left
    right
    simp [hA0]
  have hnone : (run (ops1 ++ .free A :: ops2)).1.blocks (addr2id A).1 = none := by
    cases hb : (run (ops1 ++ .free A :: ops2)).1.blocks (addr2id A).1 with
    | none => rfl
    | some b =>
      exact absurd hfreed (((Inv_run _).live_iff _).1 ⟨b, hb⟩).2.2
  refine ⟨hnone, Access_absent_at _ _ (addr2id A).1 k w ?_ hnone⟩
  rw [hdec, hAi]
  exact addr2id_id2addr_add i k hi3 hk

/-- Witness of C9: block 1 is freed, a second block is allocated, and an
offset that was in bounds before the free is written. -/
theorem freed_id_stays_dangling_witness :
    id2addr 1 ∈ allocAddrs (run [.alloc 10]).2 ∧
    (Free (run [.alloc 10]).1 (id2addr 1)).1 = none ∧
    1 < 2 ^ 28 ∧
    (Access (run ([.alloc 10] ++ .free (id2addr 1) :: [.alloc 10])).1 (id2addr 1 + 1)
      (some 7)).1 = (0, some .ErrInvalidAddr) :=
  have h := freed_id_stays_dangling [.alloc 10] [.alloc 10] (id2addr 1) 1 (some 7)
    (by decide) (by decide) (by decide)
  ⟨by decide, by decide, by decide, by rw [h.2]⟩

/-- C10: for every pool, address and optional write value, with
`(id, offset) = addr2id(addr)`: `Access` returns `ErrInvalidAddr` exactly when
`id` is not a key of the table, `ErrOverrunAccess` exactly when `id` is live and
`offset` is at least the length of its block, and nil in every other case
(`id` live and `offset` below the length).  On an error the returned byte is 0
and the pool is unchanged. -/
theorem Access_error_taxonomy (p : MemPool) (addr : Nat) (pval : Option Byte) :
    ((Access p addr pval).1.2 = some .ErrInvalidAddr ↔ p.blocks (addr2id addr).1 = none) ∧
    ((Access p addr pval).1.2 = some .ErrOverrunAccess ↔
      ∃ b, p.blocks (addr2id addr).1 = some b ∧ (addr2id addr).2 ≥ b.length) ∧
    ((Access p addr pval).1.2 = none ↔
      ∃ b, p.blocks (addr2id addr).1 = some b ∧ (addr2id addr).2 < b.length) ∧
    ((Access p addr pval).1.2 ≠ none →
      (Access p addr pval).1.1 = 0 ∧ (Access p addr pval).2 = p) := by
  cases hb : p.blocks (addr2id addr).1 with
  | none =>
    rw [Access_absent p addr pval hb]
    simp
  | some b =>
    by_cases hoff : b.length ≤ (addr2id addr).2
    · rw [Access_overrun p addr pval b hb hoff]
      simp [hoff]
    · have hoff2 : (addr2id addr).2 < b.length := by omega
      cases pval with
      | none =>
        rw [Access_read p addr b hb hoff2]
        simp [hoff, hoff2]
      | some v =>
        rw [Access_write p addr v b hb hoff2]
        simp [hoff, hoff2]

/-- Witness of C10: an access one past the end of a block of 10 bytes. -/
theorem Access_error_taxonomy_witness :
    (Access (run [.alloc 10]).1 (id2addr 1 + 10) (some 1)).1.2 ≠ none ∧
    (Access (run [.alloc 10]).1 (id2addr 1 + 10) (some 1)).1.1 = 0 ∧
    (Access (run [.alloc 10]).1 (id2addr 1 + 10) (some 1)).2 = (run [.alloc 10]).1 :=
  ⟨by decide,
    (Access_error_taxonomy (run [.alloc 10]).1 (id2addr 1 + 10) (some 1)).2.2.2 (by decide)⟩

/-! ## The codec on the addresses of a run -/

/-- C11: for every id with `1 ≤ id < 2^25` (and for id 0 as well),
`addr2id(id2addr(id)) = (id, 0)`, and `addr2id(id2addr(id) + offset) = (id, offset)` for every `offset < 2^28`;
and on every address `a` that an `Alloc` of a run of a fresh pool returned,
`addr2id` inverts `id2addr`: `a` decodes to offset 0 and to an id in
`[1, 2^25)` whose encoding is `a` again. -/
theorem codec_round_trip (id : Nat) (h2 : id < 2 ^ 25) :
    addr2id (id2addr id) = (id, 0) ∧
    (∀ offset, offset < 2 ^ 28 → addr2id (id2addr id + offset) = (id, offset)) ∧
    (∀ ops a, a ∈ allocAddrs (run ops).2 →
      1 ≤ (addr2id a).1 ∧ (addr2id a).1 < 2 ^ 25 ∧ (addr2id a).2 = 0 ∧
      id2addr (addr2id a).1 = a ∧ addr2id (id2addr (addr2id a).1) = addr2id a) := by
  refine ⟨addr2id_id2addr id h2, fun offset ho => addr2id_id2addr_add id offset h2 ho, ?_⟩
  intro ops a ha
  obtain ⟨i, hi1, _, hi3, hai, hdec⟩ := (Inv_run ops).addr_of_mem ha
  rw [hdec]
  refine ⟨hi1, hi3, rfl, hai.symm, ?_⟩
  show addr2id (id2addr i) = (i, 0)
  exact addr2id_id2addr i hi3

/-- Witness of C11: the largest id of 25 bits and the largest offset of 28 bits. -/
theorem codec_round_trip_witness :
    1 ≤ 33554431 ∧ 33554431 < 2 ^ 25 ∧
    addr2id (id2addr 33554431) = (33554431, 0) ∧
    addr2id (id2addr 33554431 + 268435455) = (33554431, 268435455) :=
  have h := codec_round_trip 33554431 (by decide)
  ⟨by decide, by decide, h.1, h.2.1 268435455 (by decide)⟩

/-- A successful `Alloc` of a run was called with a size within the limit. -/
theorem run_alloc_event_size (ops : List Op) :
    ∀ n A, (⟨.alloc n, .allocRes (.ret A none)⟩ : Event) ∈ (run ops).2 → n ≤ MemBlockLimit := by
  refine run_induction (fun _ log => ∀ n A,
    (⟨.alloc n, .allocRes (.ret A none)⟩ : Event) ∈ log → n ≤ MemBlockLimit) ?_ ?_ ops
  · intro n A h
    cases h
  · intro p log op ih n A hmem
    rcases List.mem_append.1 hmem with h1 | h1
    · exact ih n A h1
    · rw [List.mem_singleton, Event.mk.injEq] at h1
      obtain ⟨hop, hres⟩ := h1
      subst hop
      by_contra hsize
      rw [exec, Alloc_too_large p n (by omega)] at hres
      simp at hres

/-- C12: in every run of a fresh pool, every address `A` returned by a
successful `Alloc(n)` satisfies `0 < A < 2^53`, and `A + k < 2^53` for every
offset `k` below the length `n` of the block (and below the length of the
block stored under the id of `A`, while it is live). -/
theorem Alloc_address_in_safe_range (ops : List Op) (n A : Nat)
    (hA : (⟨.alloc n, .allocRes (.ret A none)⟩ : Event) ∈ (run ops).2) :
    0 < A ∧ A < 2 ^ safeIntBits ∧
    (∀ k, k < n → A + k < 2 ^ safeIntBits) ∧
    (∀ b, (run ops).1.blocks (addr2id A).1 = some b →
      ∀ k, k < b.length → A + k < 2 ^ safeIntBits) := by
  have hinv := Inv_run ops
  obtain ⟨i, hi1, hi2, hi3, hai, _⟩ := hinv.addr_of_mem (mem_allocAddrs_of_event _ n A hA)
  have hn := run_alloc_event_size ops n A hA
  have hle := hinv.le
  rw [MemBlockSlot_eq] at hle
  rw [MemBlockLimit_eq] at hn
  have hA2 : A = i * 268435456 := by
    rw [hai]
    exact id2addr_eq i (by norm_num at hi3 ⊢; omega)
  have h53 : (2 : Nat) ^ safeIntBits = 9007199254740992 := by decide
  rw [h53]
  refine ⟨by omega, by omega, fun k hk => by omega, fun b hb k hk => ?_⟩
  have hlen := hinv.len_le _ b hb
  rw [MemBlockLimit_eq] at hlen
  omega

/-- Witness of C12: the second block of a run, 1024 bytes long. -/
theorem Alloc_address_in_safe_range_witness :
    (⟨.alloc 1024, .allocRes (.ret (id2addr 2) none)⟩ : Event) ∈
      (run [.alloc 16, .alloc 1024]).2 ∧
    0 < id2addr 2 ∧ id2addr 2 + 1023 < 2 ^ safeIntBits :=
  have h := Alloc_address_in_safe_range [.alloc 16, .alloc 1024] 1024 (id2addr 2) (by decide)
  ⟨by decide, h.1, h.2.2.1 1023 (by decide)⟩

/-- The address just below the base address of block `i` decodes to block
`i - 1` at the largest offset. -/
theorem addr2id_below (i : Nat) (h1 : 1 ≤ i) (h2 : i < 2 ^ 25) :
    addr2id (id2addr i - 1) = (i - 1, 268435455) := by
  rw [id2addr_eq i (by norm_num at h2 ⊢; omega), addr2id_eq]
  norm_num at h2
  ext <;> simp <;> omega

/-- C13: in every run of a fresh pool, for every address `A` returned by a
successful `Alloc`, the access at `A - 1`, write or read, fails with
`ErrInvalidAddr` or `ErrOverrunAccess`, returns the byte 0 and leaves the pool
unchanged; below the first block (`A = id2addr 1`) the error is
`ErrInvalidAddr`. -/
theorem Access_below_block_fails (ops : List Op) (A : Nat) (w : Option Byte)
    (hA : A ∈ allocAddrs (run ops).2) :
    (Access (run ops).1 (A - 1) w = ((0, some .ErrInvalidAddr), (run ops).1) ∨
      Access (run ops).1 (A - 1) w = ((0, some .ErrOverrunAccess), (run ops).1)) ∧
    (A = id2addr 1 →
      Access (run ops).1 (A - 1) w = ((0, some .ErrInvalidAddr), (run ops).1)) := by
  have hinv := Inv_run ops
  obtain ⟨i, hi1, _, hi3, hai, _⟩ := hinv.addr_of_mem hA
  constructor
  · have hdec := addr2id_below i hi1 hi3
    rw [← hai] at hdec
    cases hb : (run ops).1.blocks (i - 1) with
    | none => exact Or.inl (Access_absent_at _ _ _ _ w hdec hb)
    | some b =>
      have hlen := hinv.len_le _ b hb
      rw [MemBlockLimit_eq] at hlen
      exact Or.inr (Access_overrun_at _ _ _ _ w b hdec hb hlen)
  · intro h1
    have hdec := addr2id_below 1 (le_refl 1) (by norm_num)
    rw [← h1] at hdec
    refine Access_absent_at _ _ _ _ w hdec ?_
    cases hb : (run ops).1.blocks (1 - 1) with
    | none => rfl
    | some b =>
      have := (hinv.id_lt hb).1
      omega

/-- Witness of C13: below the second block the first block is overrun, here
by a write. -/
theorem Access_below_block_fails_witness :
    id2addr 2 ∈ allocAddrs (run [.alloc 10, .alloc 10]).2 ∧
    Access (run [.alloc 10, .alloc 10]).1 (id2addr 2 - 1) (some 128) =
      ((0, some .ErrOverrunAccess), (run [.alloc 10, .alloc 10]).1) :=
  have h := Access_below_block_fails [.alloc 10, .alloc 10] (id2addr 2) (some 128) (by decide)
  ⟨by decide, h.1.resolve_left (by
    intro hc
    have h2 : (Access (run [.alloc 10, .alloc 10]).1 (id2addr 2 - 1) (some 128)).1.2 =
        some .ErrInvalidAddr := by rw [hc]
    exact absurd h2 (by decide))⟩

/-! ## Invariants of the table -/

/-- C14: in every run of a fresh pool, every key `id` of the table satisfies
`1 ≤ id < nextID`, and `nextID ≤ MemBlockSlot = 2^25 - 1`; id 0 is not a key,
the number of blocks allocated so far is `nextID - 1` and is at most
`2^25 - 1`, and `nextID` stays below 2^32 and never decreases from one call to
the next (it does not wrap around as a `uint32`). -/
theorem id_range_invariant (ops : List Op) :
    (∀ id b, (run ops).1.blocks id = some b → 1 ≤ id ∧ id < (run ops).1.nextID) ∧
    (run ops).1.nextID ≤ MemBlockSlot ∧
    MemBlockSlot = 2 ^ 25 - 1 ∧
    (run ops).1.blocks 0 = none ∧
    (allocAddrs (run ops).2).length = (run ops).1.nextID - 1 ∧
    (run ops).1.nextID - 1 ≤ 2 ^ 25 - 1 ∧
    (run ops).1.nextID < 2 ^ 32 ∧
    (∀ op, (run ops).1.nextID ≤ (run (ops ++ [op])).1.nextID ∧
      (run (ops ++ [op])).1.nextID ≤ (run ops).1.nextID + 1) := by
  have hinv := Inv_run ops
  have hle := hinv.le
  have hle2 := hle
  rw [MemBlockSlot_eq] at hle2
  refine ⟨fun id b hb => ⟨(hinv.id_lt hb).1, (hinv.id_lt hb).2.1⟩, hle, by decide, ?_, ?_,
    by norm_num; omega, by norm_num; omega, ?_⟩
  · cases hb : (run ops).1.blocks 0 with
    | none => rfl
    | some b =>
      have := (hinv.id_lt hb).1
      omega
  · rw [hinv.addrs, List.length_map, List.length_range']
  · intro op
    rw [run_snoc]
    cases op with
    | alloc size =>
      show (run ops).1.nextID ≤ (Alloc (run ops).1 size).2.nextID ∧
        (Alloc (run ops).1 size).2.nextID ≤ (run ops).1.nextID + 1
      by_cases hsize : size > MemBlockLimit
      · rw [Alloc_too_large _ size hsize]
        exact ⟨le_refl _, Nat.le_succ _⟩
      by_cases hfull : MemBlockSlot ≤ (run ops).1.nextID
      · rw [Alloc_full _ size (by omega) hfull]
        exact ⟨le_refl _, Nat.le_succ _⟩
      rw [Alloc_ok _ size (by omega) (by omega)]
      exact ⟨Nat.le_succ _, le_refl _⟩
    | free addr =>
      show (run ops).1.nextID ≤ (Free (run ops).1 addr).2.nextID ∧
        (Free (run ops).1 addr).2.nextID ≤ (run ops).1.nextID + 1
      by_cases h0 : addr = 0
      · rw [h0, Free_zero]
        exact ⟨le_refl _, Nat.le_succ _⟩
      cases hb : (run ops).1.blocks (addr2id addr).1 with
      | none =>
        rw [Free_absent _ addr h0 hb]
        exact ⟨le_refl _, Nat.le_succ _⟩
      | some b =>
        rw [Free_live _ addr b h0 hb]
        exact ⟨le_refl _, Nat.le_succ _⟩
    | access addr pval =>
      show (run ops).1.nextID ≤ (Access (run ops).1 addr pval).2.nextID ∧
        (Access (run ops).1 addr pval).2.nextID ≤ (run ops).1.nextID + 1
      cases hb : (run ops).1.blocks (addr2id addr).1 with
      | none =>
        rw [Access_absent _ addr pval hb]
        exact ⟨le_refl _, Nat.le_succ _⟩
      | some b =>
        by_cases hoff : b.length ≤ (addr2id addr).2
        · rw [Access_overrun _ addr pval b hb hoff]
          exact ⟨le_refl _, Nat.le_succ _⟩
        · cases pval with
          | none =>
            rw [Access_read _ addr b hb (by omega)]
            exact ⟨le_refl _, Nat.le_succ _⟩
          | some v =>
            rw [Access_write _ addr v b hb (by omega)]
            exact ⟨le_refl _, Nat.le_succ _⟩

/-- Witness of C14: after two allocations and one free, block 2 is the only
key and `nextID` is 3. -/
theorem id_range_invariant_witness :
    (run [.alloc 4, .alloc 8, .free (id2addr 1)]).1.blocks 2 = some (List.replicate 8 0) ∧
    (run [.alloc 4, .alloc 8, .free (id2addr 1)]).1.nextID = 3 ∧
    1 ≤ 2 ∧ 2 < (run [.alloc 4, .alloc 8, .free (id2addr 1)]).1.nextID :=
  have h := (id_range_invariant [.alloc 4, .alloc 8, .free (id2addr 1)]).1 2
    (List.replicate 8 0) (by decide)
  ⟨by decide, by decide, h.1, h.2⟩

/-- An access keeps every live block live and of the same length. -/
theorem Access_keeps_length (p : MemPool) (addr : Nat) (w : Option Byte) (id : Nat)
    (b : MemBlock) (hb : p.blocks id = some b) :
    ∃ b2, (Access p addr w).2.blocks id = some b2 ∧ b2.length = b.length := by
  cases hc : p.blocks (addr2id addr).1 with
  | none =>
    rw [Access_absent p addr w hc]
    exact ⟨b, hb, rfl⟩
  | some c =>
    by_cases hoff : c.length ≤ (addr2id addr).2
    · rw [Access_overrun p addr w c hc hoff]
      exact ⟨b, hb, rfl⟩
    · cases w with
      | none =>
        rw [Access_read p addr c hc (by omega)]
        exact ⟨b, hb, rfl⟩
      | some v =>
        rw [Access_write p addr v c hc (by omega)]
        by_cases hid : id = (addr2id addr).1
        · refine ⟨c.set (addr2id addr).2 v, ?_, ?_⟩
          · rw [hid]
            exact mapSet_same _ _ _
          · rw [hid, hc] at hb
            rw [List.length_set, Option.some.inj hb]
        · exact ⟨b, by rw [← hb]; exact mapSet_other _ _ _ _ hid, rfl⟩

/-- Freeing an address that decodes to another id leaves a block as it is. -/
theorem Free_keeps_other (p : MemPool) (addr id : Nat) (hne : (addr2id addr).1 ≠ id) :
    (Free p addr).2.blocks id = p.blocks id := by
  by_cases h0 : addr = 0
  · rw [h0, Free_zero]
  cases hc : p.blocks (addr2id addr).1 with
  | none => rw [Free_absent p addr h0 hc]
  | some c =>
    rw [Free_live p addr c h0 hc]
    exact mapDelete_other _ _ _ (Ne.symm hne)

/-- C15: in every run of a fresh pool every live block is at most
`MemBlockLimit = 2^28 - 1` bytes long, and the block behind an address that
`Alloc(n)` returned has length `n` for as long as it is live; on every pool an
`Access`, read or write, keeps every live block live with the same length, and
a `Free` of an address of another block leaves a block unchanged. -/
theorem block_length_invariant (ops : List Op) :
    (∀ id b, (run ops).1.blocks id = some b → b.length ≤ MemBlockLimit) ∧
    MemBlockLimit = 2 ^ 28 - 1 ∧
    (∀ n A b, (⟨.alloc n, .allocRes (.ret A none)⟩ : Event) ∈ (run ops).2 →
      (run ops).1.blocks (addr2id A).1 = some b → b.length = n) ∧
    (∀ (p : MemPool) (addr : Nat) (w : Option Byte) (id : Nat) (b : MemBlock),
      p.blocks id = some b →
      ∃ b2, (Access p addr w).2.blocks id = some b2 ∧ b2.length = b.length) ∧
    (∀ (p : MemPool) (addr id : Nat) (b : MemBlock), p.blocks id = some b →
      (addr2id addr).1 ≠ id → (Free p addr).2.blocks id = some b) := by
  have hinv := Inv_run ops
  refine ⟨hinv.len_le, by decide, hinv.size, Access_keeps_length, ?_⟩
  intro p addr id b hb hne
  rw [Free_keeps_other p addr id hne]
  exact hb

/-- Witness of C15: a block of 10 bytes after a write to it and the free of
another block. -/
theorem block_length_invariant_witness :
    (⟨.alloc 10, .allocRes (.ret (id2addr 2) none)⟩ : Event) ∈
      (run [.alloc 3, .alloc 10, .access (id2addr 2 + 9) (some 1), .free (id2addr 1)]).2 ∧
    (run [.alloc 3, .alloc 10, .access (id2addr 2 + 9) (some 1), .free (id2addr 1)]).1.blocks
      (addr2id (id2addr 2)).1 = some [0, 0, 0, 0, 0, 0, 0, 0, 0, 1] ∧
    [(0 : Byte), 0, 0, 0, 0, 0, 0, 0, 0, 1].length = 10 :=
  ⟨by decide, by decide,
    (block_length_invariant
      [.alloc 3, .alloc 10, .access (id2addr 2 + 9) (some 1), .free (id2addr 1)]).2.2.1
      10 (id2addr 2) [0, 0, 0, 0, 0, 0, 0, 0, 0, 1] (by decide) (by decide)⟩

/-- C17: a successful write `Access(addr, v)` with `addr2id(addr) = (id,
offset)` replaces block `id` by itself with `v` at position `offset`: the
length and every other position of that block, every other block, the set of
live ids and `nextID` are unchanged; a read leaves the whole pool unchanged. -/
theorem Access_frame (p : MemPool) (addr : Nat) (v : Byte)
    (hok : (Access p addr (some v)).1.2 = none) :
    (∃ b, p.blocks (addr2id addr).1 = some b ∧ (addr2id addr).2 < b.length ∧
      (Access p addr (some v)).2.blocks (addr2id addr).1 = some (b.set (addr2id addr).2 v) ∧
      (b.set (addr2id addr).2 v).length = b.length ∧
      (b.set (addr2id addr).2 v)[(addr2id addr).2]? = some v ∧
      (∀ j, j ≠ (addr2id addr).2 → (b.set (addr2id addr).2 v)[j]? = b[j]?)) ∧
    (∀ id, id ≠ (addr2id addr).1 → (Access p addr (some v)).2.blocks id = p.blocks id) ∧
    (∀ id, (Access p addr (some v)).2.blocks id = none ↔ p.blocks id = none) ∧
    (Access p addr (some v)).2.nextID = p.nextID ∧
    (Access p addr none).2 = p := by
  have hread : (Access p addr none).2 = p := by
    cases hc : p.blocks (addr2id addr).1 with
    | none => rw [Access_absent p addr none hc]
    | some c =>
      by_cases hoff : c.length ≤ (addr2id addr).2
      · rw [Access_overrun p addr none c hc hoff]
      · rw [Access_read p addr c hc (by omega)]
  cases hc : p.blocks (addr2id addr).1 with
  | none =>
    rw [Access_absent p addr (some v) hc] at hok
    cases hok
  | some c =>
    by_cases hoff : c.length ≤ (addr2id addr).2
    · rw [Access_overrun p addr (some v) c hc hoff] at hok
      cases hok
    · have hoff2 : (addr2id addr).2 < c.length := by omega
      rw [Access_write p addr v c hc hoff2]
      refine ⟨⟨c, rfl, hoff2, mapSet_same _ _ _, List.length_set _ _ _, ?_, ?_⟩, ?_, ?_, rfl,
        hread⟩
      · exact List.getElem?_set_self hoff2
      · intro j hj
        exact List.getElem?_set_ne (Ne.symm hj)
      · intro id hid
        exact mapSet_other _ _ _ _ hid
      · intro id
        by_cases hid : id = (addr2id addr).1
        · rw [hid]
          show mapSet p.blocks (addr2id addr).1 _ (addr2id addr).1 = none ↔ _
          rw [mapSet_same, hc]
          simp
        · show mapSet p.blocks (addr2id addr).1 _ id = none ↔ _
          rw [mapSet_other _ _ _ _ hid]

/-- Witness of C17: a write at offset 4 of the second of two blocks. -/
theorem Access_frame_witness :
    (Access (run [.alloc 3, .alloc 10]).1 (id2addr 2 + 4) (some 128)).1.2 = none ∧
    (Access (run [.alloc 3, .alloc 10]).1 (id2addr 2 + 4) (some 128)).2.blocks 1 =
      (run [.alloc 3, .alloc 10]).1.blocks 1 ∧
    (Access (run [.alloc 3, .alloc 10]).1 (id2addr 2 + 4) (some 128)).2.nextID =
      (run [.alloc 3, .alloc 10]).1.nextID :=
  have h := Access_frame (run [.alloc 3, .alloc 10]).1 (id2addr 2 + 4) 128 (by decide)
  ⟨by decide, h.2.1 1 (by decide), h.2.2.2.1⟩

/-! ## Capacity -/

/-- Consecutive allocations on a fresh pool, fewer than `MemBlockSlot` of them
and each within the size limit, all succeed: afterwards `nextID` is their
number plus 1. -/
theorem run_allocs_nextID (sizes : List Nat) :
    (∀ s, s ∈ sizes → s ≤ MemBlockLimit) → sizes.length < MemBlockSlot →
    (run (sizes.map .alloc)).1.nextID = sizes.length + 1 := by
  induction sizes using List.reverseRecOn with
  | nil =>
    intro _ _
    rfl
  | append_singleton l s ih =>
    intro hs hlen
    rw [List.length_append, List.length_singleton] at hlen
    have hl := ih (fun x hx => hs x (List.mem_append_left _ hx)) (by omega)
    have hsz := hs s (List.mem_append_right _ (List.mem_singleton_self s))
    rw [List.map_append, List.map_singleton, run_snoc]
    show (Alloc (run (l.map .alloc)).1 s).2.nextID = (l ++ [s]).length + 1
    rw [Alloc_ok _ s (by omega) hsz, List.length_append, List.length_singleton]
    show (run (l.map .alloc)).1.nextID + 1 = l.length + 1 + 1
    rw [hl]

/-- C18 fails on the code at `n = MemBlockSlot`: after `MemBlockSlot - 1`
consecutive calls `Alloc(1)` on a fresh pool, all of which succeed, `nextID` is
`MemBlockSlot`, and the next call, the `MemBlockSlot`-th, panics instead of
returning an address: the id `2^25 - 1` is never handed out. -/
theorem Alloc_panics_at_last_slot :
    (run (List.replicate (MemBlockSlot - 1) (.alloc 1))).1.nextID = MemBlockSlot ∧
    (allocAddrs (run (List.replicate (MemBlockSlot - 1) (.alloc 1))).2).length =
      MemBlockSlot - 1 ∧
    Alloc (run (List.replicate (MemBlockSlot - 1) (.alloc 1))).1 1 =
      (.panicked, (run (List.replicate (MemBlockSlot - 1) (.alloc 1))).1) ∧
    (∀ ops a, a ∈ allocAddrs (run ops).2 → (addr2id a).1 ≠ 2 ^ 25 - 1) := by
  have hslot : 1 ≤ MemBlockSlot := by decide
  have hmap : List.replicate (MemBlockSlot - 1) (Op.alloc 1) =
      (List.replicate (MemBlockSlot - 1) 1).map Op.alloc := List.map_replicate.symm
  have hnext : (run (List.replicate (MemBlockSlot - 1) (.alloc 1))).1.nextID = MemBlockSlot := by
    rw [hmap, run_allocs_nextID _ (fun s hs => by
      rw [(List.mem_replicate.1 hs).2]
      decide) (by rw [List.length_replicate]; omega), List.length_replicate]
    omega
  refine ⟨hnext, ?_, ?_, ?_⟩
  · rw [(Inv_run _).addrs, List.length_map, List.length_range', hnext]
  · exact Alloc_full _ 1 (by decide) (by rw [hnext])
  · intro ops a ha
    obtain ⟨i, _, hi, _, _, hdec⟩ := (Inv_run ops).addr_of_mem ha
    have hle := (Inv_run ops).le
    rw [MemBlockSlot_eq] at hle
    rw [hdec]
    show i ≠ 2 ^ 25 - 1
    norm_num
    omega

/-! ## Addresses that are not base addresses -/

/-- On a pool where block `id` is live and `id` fits the 25 id bits and is
not 0, freeing any address of the block removes the block. -/
theorem Free_at_offset (p : MemPool) (id k : Nat) (b : MemBlock)
    (hb : p.blocks id = some b) (h1 : 1 ≤ id) (h2 : id < 2 ^ 25) (hk : k < 2 ^ 28) :
    Free p (id2addr id + k) =
      (none, { blocks := mapDelete p.blocks id, nextID := p.nextID }) := by
  have hdec := addr2id_id2addr_add id k h2 hk
  have hne : id2addr id + k ≠ 0 := by
    rw [id2addr_eq id (by norm_num at h2 ⊢; omega)]
    omega
  have hfst : (addr2id (id2addr id + k)).1 = id := by rw [hdec]
  have hlive : p.blocks (addr2id (id2addr id + k)).1 = some b := by
    rw [hfst]
    exact hb
  rw [Free_live p _ b hne hlive, hfst]

/-- C19: for every pool state of a run of a fresh pool, every live block `id`
with base address `A = id2addr(id)` and every `k < 2^28`, `Free(A + k)` returns
nil and removes the whole block `id`, leaving every other entry and `nextID` as
they were, which is exactly what `Free(A)` does; the length of the block plays
no part. -/
theorem Free_ignores_offset (ops : List Op) (id k : Nat) (b : MemBlock)
    (hb : (run ops).1.blocks id = some b) (hk : k < 2 ^ 28) :
    (Free (run ops).1 (id2addr id + k)).1 = none ∧
    (Free (run ops).1 (id2addr id + k)).2.blocks id = none ∧
    (∀ j, j ≠ id →
      (Free (run ops).1 (id2addr id + k)).2.blocks j = (run ops).1.blocks j) ∧
    (Free (run ops).1 (id2addr id + k)).2.nextID = (run ops).1.nextID ∧
    Free (run ops).1 (id2addr id + k) = Free (run ops).1 (id2addr id) := by
  have hid := (Inv_run ops).id_lt hb
  have h0 := Free_at_offset (run ops).1 id 0 b hb hid.1 hid.2.2 (by norm_num)
  rw [Nat.add_zero] at h0
  rw [Free_at_offset (run ops).1 id k b hb hid.1 hid.2.2 hk, h0]
  exact ⟨rfl, mapDelete_same _ _, fun j hj => mapDelete_other _ _ _ hj, rfl, rfl⟩

/-- Witness of C19: the second of two blocks, 10 bytes long, freed through an
address 1000 bytes past its base. -/
theorem Free_ignores_offset_witness :
    (run [.alloc 4, .alloc 10]).1.blocks 2 = some (List.replicate 10 0) ∧
    1000 < 2 ^ 28 ∧
    (Free (run [.alloc 4, .alloc 10]).1 (id2addr 2 + 1000)).1 = none ∧
    (Free (run [.alloc 4, .alloc 10]).1 (id2addr 2 + 1000)).2.blocks 2 = none ∧
    (Free (run [.alloc 4, .alloc 10]).1 (id2addr 2 + 1000)).2.blocks 1 =
      (run [.alloc 4, .alloc 10]).1.blocks 1 ∧
    Free (run [.alloc 4, .alloc 10]).1 (id2addr 2 + 1000) =
      Free (run [.alloc 4, .alloc 10]).1 (id2addr 2) :=
  have h := Free_ignores_offset [.alloc 4, .alloc 10] 2 1000 (List.replicate 10 0)
    (by decide) (by decide)
  ⟨by decide, by decide, h.1, h.2.1, h.2.2.1 1 (by decide), h.2.2.2.2⟩

/-- Only the low 53 bits of an address reach the decoder. -/
theorem addr2id_mod (addr : Nat) : addr2id (addr % 2 ^ 53) = addr2id addr := by
  have e : (2 : Nat) ^ 53 = 9007199254740992 := by norm_num
  rw [addr2id_eq, addr2id_eq, e]
  refine Prod.ext ?_ ?_
  · show addr % 9007199254740992 / 268435456 % 33554432 = addr / 268435456 % 33554432
    omega
  · show addr % 9007199254740992 % 268435456 = addr % 268435456
    omega

/-- C20: for every pool, every address and every optional write value,
`Access(addr, w)` returns the same result and the same pool as
`Access(addr mod 2^53, w)`; so when the low 53 bits of `addr` name a live block
and an offset within it, the access succeeds on that block.  `Free` differs:
in every run of a fresh pool `Free(2^53)` returns `ErrInvalidAddr` while
`Free(0)` returns nil. -/
theorem Access_aliases_high_bits (p : MemPool) (addr : Nat) (w : Option Byte) :
    Access p addr w = Access p (addr % 2 ^ 53) w ∧
    (∀ b, p.blocks (addr2id (addr % 2 ^ 53)).1 = some b →
      (addr2id (addr % 2 ^ 53)).2 < b.length → (Access p addr w).1.2 = none) ∧
    (∀ ops, Free (run ops).1 (2 ^ 53) = (some .ErrInvalidAddr, (run ops).1) ∧
      Free (run ops).1 0 = (none, (run ops).1)) := by
  have hmod := addr2id_mod addr
  have hd : addr2id (addr % 2 ^ 53) = ((addr2id addr).1, (addr2id addr).2) := by rw [hmod]
  have heq : Access p addr w = Access p (addr % 2 ^ 53) w := by
    cases hc : p.blocks (addr2id addr).1 with
    | none => rw [Access_absent p addr w hc, Access_absent_at p _ _ _ w hd hc]
    | some c =>
      by_cases hoff : c.length ≤ (addr2id addr).2
      · rw [Access_overrun p addr w c hc hoff, Access_overrun_at p _ _ _ w c hd hc hoff]
      · have hoff2 : (addr2id addr).2 < c.length := by omega
        cases w with
        | none => rw [Access_read p addr c hc hoff2, Access_read_at p _ _ _ c hd hc hoff2]
        | some v => rw [Access_write p addr v c hc hoff2, Access_write_at p _ _ _ v c hd hc hoff2]
  refine ⟨heq, ?_, ?_⟩
  · intro b hb hoff
    rw [heq]
    cases w with
    | none => rw [Access_read _ _ b hb hoff]
    | some v => rw [Access_write _ _ v b hb hoff]
  · intro ops
    constructor
    · have hdec : addr2id (2 ^ 53) = (0, 0) := by
        rw [addr2id_eq]
        norm_num
      refine Free_absent _ _ (by norm_num) ?_
      rw [hdec]
      cases hb : (run ops).1.blocks 0 with
      | none => rfl
      | some b =>
        have := ((Inv_run ops).id_lt hb).1
        omega
    · exact Free_zero _

/-- Witness of C20: an address with bit 53 set reads the byte written to the
block that its low 53 bits name. -/
theorem Access_aliases_high_bits_witness :
    (run [.alloc 10, .access (id2addr 1 + 4) (some 128)]).1.blocks
      (addr2id ((2 ^ 53 + id2addr 1 + 4) % 2 ^ 53)).1 =
      some [0, 0, 0, 0, 128, 0, 0, 0, 0, 0] ∧
    2 ^ 53 + id2addr 1 + 4 < 2 ^ 64 ∧
    (Access (run [.alloc 10, .access (id2addr 1 + 4) (some 128)]).1
      (2 ^ 53 + id2addr 1 + 4) none).1.2 = none ∧
    (Access (run [.alloc 10, .access (id2addr 1 + 4) (some 128)]).1
      (2 ^ 53 + id2addr 1 + 4) none).1.1 = 128 :=
  have h := Access_aliases_high_bits (run [.alloc 10, .access (id2addr 1 + 4) (some 128)]).1
    (2 ^ 53 + id2addr 1 + 4) none
  ⟨by decide, by decide, h.2.1 [0, 0, 0, 0, 128, 0, 0, 0, 0, 0] (by decide) (by decide),
    by rw [h.1]; decide⟩

end Mempool
